import Mathlib

/-!
Verification development for the vs-jet-engine concurrency core.

The definitions below are a shallow embedding of the Python sources:

* `vsengine/_nodes.py` — `buffer_futures` (the ordered prefetch pipeline)
  and `close_when_needed` (the resource-closing pipeline);
* `vsengine/policy.py` — `_ManagedPolicy` (context policy over a store)
  and `ManagedEnvironment.dispose`;
* `vsengine/video.py` — the `frames` entry point's backlog gate.

Futures are identified by their source index; a future's only relevant
observable here is whether it completes with an exception, which is a
property of the source sequence (`fails`).  Completion callbacks and the
consumer loop interleave arbitrarily; every block that the Python code
runs under the pipeline lock (or that only the single consumer thread
touches) is one atomic transition.
-/

namespace VsEngine

namespace Nodes

/-- Parameters of one `buffer_futures` invocation, after the normalization
at the top of the function: `N` is the length of the (finite) source
sequence of futures, `fails k` says whether the future at index `k`
completes with an exception, `prefetch` and `backlog` are the normalized
bounds. -/
structure BufParams where
  N : Nat
  fails : Nat → Bool
  prefetch : Nat
  backlog : Nat

/-- The mutable state of `buffer_futures`: `finished`, `running` (a Python
int, hence `Int`), the reorder buffer (its key set, in insertion order),
the set of registered-but-not-yet-completed futures (`inflight`, tracking
which completion callbacks are still pending), the enumeration cursor of
`enum_fut` (`nextIdx`), the delivery cursor `sidx`, and the indices
yielded so far in order (`yielded`). -/
structure BufState where
  finished : Bool
  running : Int
  reorder : List Nat
  inflight : List Nat
  nextIdx : Nat
  sidx : Nat
  yielded : List Nat
deriving DecidableEq

/-- Embedding of `_request_next` (lines 30–45 of `_nodes.py`): under the
lock, return if finished; pull the next `(idx, fut)` from
`enumerate(futures)` (setting `finished` on exhaustion); otherwise
increment `running`, insert the future into the reorder buffer at its
index, and register the completion callback (making the index inflight). -/
def requestNext (P : BufParams) (s : BufState) : BufState :=
  if s.finished then s
  else if s.nextIdx < P.N then
    { s with
      running := s.running + 1
      reorder := s.reorder ++ [s.nextIdx]
      inflight := s.inflight ++ [s.nextIdx]
      nextIdx := s.nextIdx + 1 }
  else { s with finished := true }

/-- The guard of the `while` loop inside `_refill` (line 67 of
`_nodes.py`): not finished, concurrency below `prefetch`, and reorder
buffer below `backlog`. -/
def refillGuard (P : BufParams) (s : BufState) : Bool :=
  !s.finished && decide (s.running < (P.prefetch : Int)) && decide (s.reorder.length < P.backlog)

/-- Termination fuel for `refill`: each `_request_next` under the guard
either raises `running` or sets `finished`. -/
def refillFuel (P : BufParams) (s : BufState) : Nat :=
  if s.finished then 0 else ((P.prefetch : Int) - s.running).toNat + 1

/-- Embedding of `_refill` (lines 60–70 of `_nodes.py`): while the guard
holds, call `_request_next`. -/
def refill (P : BufParams) (s : BufState) : BufState :=
  if hg : refillGuard P s = true then refill P (requestNext P s) else s
termination_by refillFuel P s
decreasing_by
  simp only [refillGuard, Bool.and_eq_true, Bool.not_eq_true', decide_eq_true_eq] at hg
  obtain ⟨⟨h1, h2⟩, h3⟩ := hg
  unfold requestNext refillFuel
  by_cases hN : s.nextIdx < P.N <;> simp [h1, hN] <;> omega

/-- Embedding of the completion callback `_finished` (lines 47–58 of
`_nodes.py`) firing for the future at index `k`: under the lock,
decrement `running`; if already finished, return; if the future failed,
set `finished`; otherwise run `_refill`.  The callback fires exactly once
per registered future, so `k` leaves `inflight`. -/
def finishedCb (P : BufParams) (k : Nat) (s : BufState) : BufState :=
  let s1 : BufState := { s with running := s.running - 1, inflight := s.inflight.erase k }
  if s1.finished then s1
  else if P.fails k then { s1 with finished := true }
  else refill P s1

/-- Embedding of one successful pass of the delivery loop body (lines
74–85 of `_nodes.py`), up to but not including the `_refill()` call: the
entry at the delivery cursor is popped from the reorder buffer, the
cursor advances, and the future is yielded.  The subsequent `_refill` is
a separate transition, so that completion callbacks may interleave
between the pop and the refill exactly as in the source. -/
def deliverStep (s : BufState) : BufState :=
  { s with
    reorder := s.reorder.erase s.sidx
    yielded := s.yielded ++ [s.sidx]
    sidx := s.sidx + 1 }

/-- The state of `buffer_futures` when the delivery loop is first entered
(line 72 of `_nodes.py`): the initial `_refill()` applied to the freshly
initialized locals. -/
def startState (P : BufParams) : BufState :=
  refill P { finished := false, running := 0, reorder := [], inflight := [],
             nextIdx := 0, sidx := 0, yielded := [] }

/-- One interleaving step of the pipeline: a pending completion callback
fires, the consumer pops the head-of-line entry and yields it, or a
refill pass runs (enabled whenever its guard holds, covering both the
callback-triggered and the delivery-triggered `_refill()` call sites). -/
inductive Step (P : BufParams) : BufState → BufState → Prop
  | complete (s : BufState) (k : Nat) (hk : k ∈ s.inflight) : Step P s (finishedCb P k s)
  | deliver (s : BufState) (h : s.sidx ∈ s.reorder) : Step P s (deliverStep s)
  | refillS (s : BufState) (h : refillGuard P s = true) : Step P s (refill P s)

/-- States reachable by some interleaving of callbacks, deliveries and
refills from the start of `buffer_futures`. -/
def Reachable (P : BufParams) (s : BufState) : Prop :=
  Relation.ReflTransGen (Step P) (startState P) s

/-- The inductive invariant of the pipeline state. -/
structure Inv (P : BufParams) (s : BufState) : Prop where
  run_inflight : s.running = s.inflight.length
  run_le : s.running ≤ (P.prefetch : Int)
  reorder_le : s.reorder.length ≤ P.backlog
  reorder_window : s.reorder = List.range' s.sidx (s.nextIdx - s.sidx)
  sidx_le : s.sidx ≤ s.nextIdx
  next_le : s.nextIdx ≤ P.N
  inflight_lt : ∀ k ∈ s.inflight, k < s.nextIdx
  finished_reason : s.finished = true → s.nextIdx = P.N ∨ ∃ m, m < s.nextIdx ∧ P.fails m = true
  yielded_eq : s.yielded = List.range s.sidx

/-- Progress measure: pending pulls plus pending completions.  Unchanged
by refills, and strictly decreased (together with the delivery component)
by every completion and delivery. -/
def measAux (P : BufParams) (s : BufState) : Nat :=
  (P.N - s.nextIdx) + s.inflight.length

/-- The combined termination measure: every step of any interleaving
strictly decreases it, so no execution of the pipeline runs forever. -/
def runMeasure (P : BufParams) (s : BufState) : Nat :=
  2 * (measAux P s + (P.N - s.sidx)) + (if refillGuard P s = true then 1 else 0)

/-- A state in which no completion callback is pending, no entry can be
delivered, and no refill would do anything: the delivery loop of
`buffer_futures` exits there (its `while` condition is false). -/
def Stuck (P : BufParams) (s : BufState) : Prop := ∀ t, ¬ Step P s t

/-- Concrete parameters for witnesses: two futures, none failing,
`prefetch = backlog = 1`. -/
def witOk : BufParams := ⟨2, fun _ => false, 1, 1⟩

/-- Concrete parameters for witnesses: one future, which fails. -/
def witFail : BufParams := ⟨1, fun j => decide (j = 0), 1, 1⟩

/-- The start state of `buffer_futures` on `witFail`: index 0 has been
requested. -/
def witS1 : BufState := ⟨false, 1, [0], [0], 1, 0, []⟩

/-- State of the `witFail` run after the failing completion callback. -/
def witS2 : BufState := ⟨true, 0, [0], [], 1, 0, []⟩

/-- State of the `witFail` run after the failed future is delivered. -/
def witS3 : BufState := ⟨true, 0, [], [], 1, 1, [0]⟩

end Nodes

namespace Close

/-- Phase of the fully sequential consumer of `close_when_needed`
(`_nodes.py`, lines 91–116): `idle k` means items `0..k-1` have been
requested and their results observed and item `k` is about to be
requested; `waiting k` means item `k` has been requested and its derived
future is being awaited; `done` means the generator has been exhausted. -/
inductive Phase
  | idle (k : Nat)
  | waiting (k : Nat)
  | done
deriving DecidableEq

/-- State of one `close_when_needed` run over `N` resource-producing
futures, all of which succeed (the claim is about resource-producing
sequences): `pulled` counts the futures taken from the source iterable,
`completedF k` records completion of future `k`, `enteredF k` records
that `__enter__` ran (inside the `_as_completed` callback, which also
resolves the derived future), `exitRegF k` records that `close_fut`
registered the `_do_close` callback on future `k`, `exitCount k` counts
invocations of `__exit__` on resource `k`, and `observed` counts the
results the consumer has seen. -/
structure CState where
  pulled : Nat
  completedF : Nat → Bool
  enteredF : Nat → Bool
  exitRegF : Nat → Bool
  exitCount : Nat → Nat
  observed : Nat
  phase : Phase

/-- Pointwise update of a Boolean history to true at `k`. -/
def setTrue (f : Nat → Bool) (k : Nat) : Nat → Bool :=
  fun j => if j = k then true else f j

/-- Pointwise increment of a counter history at `k`. -/
def bump (f : Nat → Nat) (k : Nat) : Nat → Nat :=
  fun j => if j = k then f j + 1 else f j

/-- The consumer requests item `k` (`k ≤ N`): the generator resumes after
the previous `yield`, so for `k ≥ 1` it first runs `close_fut` on future
`k-1` — registering `_do_close`, which fires at once when that future has
already completed — and then, if the iterable is not exhausted, pulls
future `k`, builds the derived future (registering `_as_completed`, which
fires at once on an already-completed future) and yields it; on
exhaustion the `for` loop ends and the generator is done. -/
def requestStep (N k : Nat) (s : CState) : CState :=
  let s1 :=
    if k = 0 then s
    else
      let sr := { s with exitRegF := setTrue s.exitRegF (k - 1) }
      if sr.completedF (k - 1) then { sr with exitCount := bump sr.exitCount (k - 1) } else sr
  if k < N then
    let s2 := { s1 with pulled := k + 1, phase := Phase.waiting k }
    if s2.completedF k then { s2 with enteredF := setTrue s2.enteredF k } else s2
  else { s1 with phase := Phase.done }

/-- Future `k` completes on some worker thread (only completions of
already-pulled futures are observable by this component — a future that
completes before it is pulled behaves exactly like one completing right
after the pull, since its callbacks are only registered from the pull
on): the pending `_as_completed` callback enters the resource and
resolves the derived future, then `_do_close` exits it if it was already
registered.  Callbacks run in registration order. -/
def completeStep (k : Nat) (s : CState) : CState :=
  let s1 := { s with completedF := setTrue s.completedF k, enteredF := setTrue s.enteredF k }
  if s1.exitRegF k then { s1 with exitCount := bump s1.exitCount k } else s1

/-- The consumer observes the result of item `k` once the derived future
has resolved (i.e. once the resource has been entered). -/
def observeStep (k : Nat) (s : CState) : CState :=
  { s with observed := k + 1, phase := Phase.idle (k + 1) }

/-- One step of a fully sequential consumption of `close_when_needed`,
with future completions interleaving arbitrarily. -/
inductive CStep (N : Nat) : CState → CState → Prop
  | request (s : CState) (k : Nat) (h : s.phase = Phase.idle k) (hk : k ≤ N) :
      CStep N s (requestStep N k s)
  | complete (s : CState) (k : Nat) (hp : k < s.pulled) (hc : s.completedF k = false) :
      CStep N s (completeStep k s)
  | observe (s : CState) (k : Nat) (h : s.phase = Phase.waiting k) (he : s.enteredF k = true) :
      CStep N s (observeStep k s)

/-- The initial state of a `close_when_needed` run. -/
def CInit : CState :=
  ⟨0, fun _ => false, fun _ => false, fun _ => false, fun _ => 0, 0, Phase.idle 0⟩

/-- States reachable during a sequential consumption of the pipeline. -/
def CReachable (N : Nat) (s : CState) : Prop :=
  Relation.ReflTransGen (CStep N) CInit s

/-- Number of `next()` calls the consumer has issued so far. -/
def reqCount (N : Nat) (s : CState) : Nat :=
  match s.phase with
  | Phase.idle k => k
  | Phase.waiting k => k + 1
  | Phase.done => N + 1

/-- The inductive invariant of the resource-closing pipeline. -/
structure CInv (N : Nat) (s : CState) : Prop where
  entered_iff : ∀ k, s.enteredF k = s.completedF k
  completed_pulled : ∀ k, s.completedF k = true → k < s.pulled
  phase_idle : ∀ k, s.phase = Phase.idle k → s.observed = k ∧ s.pulled = k ∧ k ≤ N
  phase_waiting : ∀ k, s.phase = Phase.waiting k → s.observed = k ∧ s.pulled = k + 1 ∧ k < N
  phase_done : s.phase = Phase.done → s.observed = N ∧ s.pulled = N
  observed_entered : ∀ k, k < s.observed → s.enteredF k = true
  reg_iff : ∀ k, s.exitRegF k = true ↔ k + 2 ≤ reqCount N s
  exit_eq : ∀ k, s.exitCount k =
    if s.exitRegF k = true ∧ s.completedF k = true then 1 else 0

end Close

namespace Policy

/-- State of one `_ManagedPolicy` (`policy.py`, lines 153–240) over a
`GlobalStore`: the optional API handle `_api` (absent before
`on_policy_registered` and after `on_policy_cleared`), the store slot
(holding a weak reference to an environment, here an environment id), and
the thread-local inline-section override `_local.environment` of the
calling thread.  Environment liveness is external: `derefAlive e` says
whether the weak reference to `e` still dereferences, and `envAlive e` is
the engine's `is_alive` oracle. -/
structure PState where
  api : Option Nat
  store : Option Nat
  localEnv : Option Nat
deriving DecidableEq

/-- Embedding of the `_ManagedPolicy.api` property (lines 176–181): the
handle when one is attached, and a loud `RuntimeError` otherwise. -/
def apiAccess (s : PState) : Except Unit Nat :=
  match s.api with
  | some a => Except.ok a
  | none => Except.error ()

/-- The mutex-protected store path of `get_current_environment` (lines
200–221): read the store; on an empty slot return null; if the weak
reference is dead, or the referent fails the liveness oracle, clear the
store and return null; otherwise return the environment. -/
def storeLookup (derefAlive envAlive : Nat → Bool) (s : PState) : Option Nat × PState :=
  match s.store with
  | none => (none, s)
  | some t =>
    if derefAlive t = false then (none, { s with store := none })
    else if envAlive t = false then (none, { s with store := none })
    else (some t, s)

/-- Embedding of `_ManagedPolicy.get_current_environment` (lines
191–221): a live inline-section override of the calling thread is
returned first, without consulting the store; otherwise the store path
runs under the mutex. -/
def get_current_environment (derefAlive envAlive : Nat → Bool) (s : PState) :
    Option Nat × PState :=
  match s.localEnv with
  | some e => if envAlive e then (some e, s) else storeLookup derefAlive envAlive s
  | none => storeLookup derefAlive envAlive s

/-- Embedding of `_ManagedPolicy.set_environment` (lines 223–240): under
the mutex, read the previous slot; a dead non-null argument is treated as
null (the store is cleared), otherwise the argument (or null) is stored;
the previous environment is returned dereferenced. -/
def set_environment (derefAlive envAlive : Nat → Bool) (e : Option Nat) (s : PState) :
    Option Nat × PState :=
  let prev := s.store
  let s2 :=
    match e with
    | none => { s with store := none }
    | some env => if envAlive env then { s with store := some env } else { s with store := none }
  match prev with
  | some p => (if derefAlive p then some p else none, s2)
  | none => (none, s2)

/-- A thread with no live inline-section override: either no override is
set, or the override environment fails the liveness check (in which case
`get_current_environment` falls through to the store). -/
def NoLiveOverride (envAlive : Nat → Bool) (s : PState) : Prop :=
  ∀ e, s.localEnv = some e → envAlive e = false

/-- One operation of a single-threaded client of the policy. -/
inductive POp
  | set (e : Option Nat)
  | get
deriving DecidableEq

/-- Run a list of operations against the policy, collecting the result of
every `get` (embedding of a single-threaded call sequence against
`_ManagedPolicy` with no concurrent interference). -/
def runOps (derefAlive envAlive : Nat → Bool) (s : PState) : List POp → List (Option Nat)
  | [] => []
  | POp.set e :: rest => runOps derefAlive envAlive (set_environment derefAlive envAlive e s).2 rest
  | POp.get :: rest =>
    (get_current_environment derefAlive envAlive s).1 ::
      runOps derefAlive envAlive (get_current_environment derefAlive envAlive s).2 rest

/-- Specification-side semantics of the same call sequence: each `get`
returns the argument of the most recent preceding `set`, or the initial
value when no `set` has occurred yet. -/
def lastWriteOuts (cur : Option Nat) : List POp → List (Option Nat)
  | [] => []
  | POp.set e :: rest => lastWriteOuts e rest
  | POp.get :: rest => cur :: lastWriteOuts cur rest

end Policy

namespace Managed

/-- Observable state of one `ManagedEnvironment` (`policy.py`, lines
243–350): `data` is the environment data handle (deleted on disposal, so
`disposed` is its absence), `hospice` logs `admit_environment` calls and
`destroyed` logs `api.destroy_environment` calls, in order. -/
structure MState where
  data : Option Nat
  hospice : List Nat
  destroyed : List Nat
deriving DecidableEq

/-- Embedding of the `ManagedEnvironment.disposed` property (lines
336–341). -/
def disposed (s : MState) : Bool := s.data.isNone

/-- Embedding of `ManagedEnvironment.dispose` (lines 327–334): return at
once when already disposed; otherwise admit the environment to the
hospice, hand the token back to the engine via
`api.destroy_environment`, and delete the handle. -/
def dispose (s : MState) : MState :=
  if disposed s then s
  else
    match s.data with
    | none => s
    | some d => { data := none, hospice := s.hospice ++ [d], destroyed := s.destroyed ++ [d] }

end Managed

namespace Video

/-- The `prefetch` normalization at the top of `buffer_futures`
(`_nodes.py`, lines 16–17): zero selects the engine default
`core.num_threads`. -/
def normalizePrefetch (numThreads prefetch : Int) : Int :=
  if prefetch = 0 then numThreads else prefetch

/-- The `backlog` normalization at the top of `buffer_futures`
(`_nodes.py`, lines 18–21), applied to the already-normalized
`prefetch`: an unspecified backlog defaults to three times `prefetch`,
and a backlog below `prefetch` is clamped up to it. -/
def normalizeBacklog (prefetch : Int) (backlog : Option Int) : Int :=
  let b :=
    match backlog with
    | none => prefetch * 3
    | some b => b
  if b < prefetch then prefetch else b

/-- The buffering gate of `vsengine.video.frames` (`video.py`, line 66):
`buffer_futures` is interposed exactly when the caller left `backlog`
unspecified or passed a positive value; otherwise the raw one-at-a-time
generator is consumed directly. -/
def framesBuffered (backlog : Option Int) : Bool :=
  match backlog with
  | none => true
  | some b => decide (0 < b)

end Video

namespace Nodes

theorem refillGuard_spec (P : BufParams) (s : BufState) (h : refillGuard P s = true) :
    s.finished = false ∧ s.running < (P.prefetch : Int) ∧ s.reorder.length < P.backlog := by
  simp only [refillGuard, Bool.and_eq_true, Bool.not_eq_true', decide_eq_true_eq] at h
  exact ⟨h.1.1, h.1.2, h.2⟩

theorem inv_requestNext (P : BufParams) (s : BufState) (h : Inv P s)
    (hg : refillGuard P s = true) : Inv P (requestNext P s) := by
  obtain ⟨h1, h2, h3⟩ := refillGuard_spec P s hg
  have hs := h.sidx_le
  have hN2 := h.next_le
  unfold requestNext
  rw [h1]
  simp only [Bool.false_eq_true, if_false]
  by_cases hN : s.nextIdx < P.N
  · simp only [hN, if_true]
    refine ⟨?_, ?_, ?_, ?_, ?_, ?_, ?_, ?_, ?_⟩ <;> dsimp only
    · simp [h.run_inflight]
    · omega
    · simp only [List.length_append, List.length_cons, List.length_nil]
      omega
    · rw [h.reorder_window]
      have he1 : s.nextIdx + 1 - s.sidx = (s.nextIdx - s.sidx) + 1 := by omega
      have he2 : s.sidx + (s.nextIdx - s.sidx) = s.nextIdx := by omega
      rw [he1, List.range'_1_concat, he2]
    · omega
    · omega
    · intro k hk
      rcases List.mem_append.1 hk with hk | hk
      · exact Nat.lt_succ_of_lt (h.inflight_lt k hk)
      · simp only [List.mem_singleton] at hk
        omega
    · intro hf
      exact absurd hf Bool.false_ne_true
    · exact h.yielded_eq
  · simp only [hN, if_false]
    refine ⟨h.run_inflight, h.run_le, h.reorder_le, h.reorder_window, h.sidx_le, h.next_le,
      h.inflight_lt, ?_, h.yielded_eq⟩ <;> dsimp only
    intro _
    left
    omega

theorem inv_refill (P : BufParams) (s : BufState) : Inv P s → Inv P (refill P s) := by
  induction s using refill.induct P with
  | case1 s hg ih =>
    intro h
    rw [refill, dif_pos hg]
    exact ih (inv_requestNext P s h hg)
  | case2 s hg =>
    intro h
    rw [refill, dif_neg hg]
    exact h

theorem inv_finishedCb (P : BufParams) (s : BufState) (k : Nat) (hk : k ∈ s.inflight)
    (h : Inv P s) : Inv P (finishedCb P k s) := by
  have hlen : (s.inflight.erase k).length = s.inflight.length - 1 := List.length_erase_of_mem hk
  have hpos : 0 < s.inflight.length := List.length_pos.2 (List.ne_nil_of_mem hk)
  have hri := h.run_inflight
  have hrl := h.run_le
  have h1 : Inv P { s with running := s.running - 1, inflight := s.inflight.erase k } := by
    refine ⟨?_, ?_, h.reorder_le, h.reorder_window, h.sidx_le, h.next_le, ?_,
      h.finished_reason, h.yielded_eq⟩ <;> dsimp only
    · rw [hlen]
      omega
    · omega
    · intro j hj
      exact h.inflight_lt j (List.mem_of_mem_erase hj)
  unfold finishedCb
  dsimp only
  cases hfb : s.finished with
  | true =>
    rw [hfb] at h1
    simpa using h1
  | false =>
    rw [hfb] at h1
    simp only [Bool.false_eq_true, if_false]
    by_cases hfk : P.fails k
    · simp only [hfk, if_true]
      refine ⟨h1.run_inflight, h1.run_le, h1.reorder_le, h1.reorder_window, h1.sidx_le,
        h1.next_le, h1.inflight_lt, ?_, h1.yielded_eq⟩
      intro _
      right
      exact ⟨k, h.inflight_lt k hk, hfk⟩
    · simp only [hfk, Bool.false_eq_true, if_false]
      exact inv_refill P _ h1

theorem sidx_lt_of_mem (s : BufState) (P : BufParams) (h : Inv P s)
    (hd : s.sidx ∈ s.reorder) : s.sidx < s.nextIdx := by
  by_contra hc
  rw [h.reorder_window] at hd
  have h0 : s.nextIdx - s.sidx = 0 := by omega
  rw [h0] at hd
  simp at hd

theorem inv_deliverStep (P : BufParams) (s : BufState) (hd : s.sidx ∈ s.reorder)
    (h : Inv P s) : Inv P (deliverStep s) := by
  have hw := h.reorder_window
  have hcnt : s.sidx < s.nextIdx := sidx_lt_of_mem s P h hd
  have hrw : s.reorder.erase s.sidx = List.range' (s.sidx + 1) (s.nextIdx - (s.sidx + 1)) := by
    rw [hw]
    have h5 : s.nextIdx - s.sidx = (s.nextIdx - (s.sidx + 1)) + 1 := by omega
    rw [h5, List.range'_succ, List.erase_cons_head]
  have hle : (s.reorder.erase s.sidx).length = s.reorder.length - 1 :=
    List.length_erase_of_mem hd
  refine ⟨h.run_inflight, h.run_le, ?_, ?_, ?_, h.next_le, h.inflight_lt,
    h.finished_reason, ?_⟩
  · show (s.reorder.erase s.sidx).length ≤ P.backlog
    rw [hle]
    have := h.reorder_le
    omega
  · exact hrw
  · show s.sidx + 1 ≤ s.nextIdx
    omega
  · show s.yielded ++ [s.sidx] = List.range (s.sidx + 1)
    rw [h.yielded_eq, List.range_succ]

theorem inv_start (P : BufParams) : Inv P (startState P) := by
  apply inv_refill
  refine ⟨rfl, ?_, ?_, ?_, ?_, ?_, ?_, ?_, ?_⟩ <;> dsimp only
  · simp
  · simp
  · simp
  · simp
  · simp
  · intro j hj
    simp at hj
  · intro hf
    exact absurd hf Bool.false_ne_true
  · simp

theorem inv_step (P : BufParams) (s t : BufState) (hst : Step P s t) (h : Inv P s) :
    Inv P t := by
  cases hst with
  | complete k hk => exact inv_finishedCb P s k hk h
  | deliver hd => exact inv_deliverStep P s hd h
  | refillS hg => exact inv_refill P s h

theorem inv_reachable (P : BufParams) (s : BufState) (h : Reachable P s) : Inv P s := by
  induction h with
  | refl => exact inv_start P
  | tail _ hbc ih => exact inv_step P _ _ hbc ih

theorem measAux_requestNext (P : BufParams) (s : BufState) :
    measAux P (requestNext P s) = measAux P s := by
  unfold requestNext measAux
  by_cases h1 : s.finished
  · simp [h1]
  · simp only [h1, Bool.false_eq_true, if_false]
    by_cases hN : s.nextIdx < P.N
    · simp only [hN, if_true]
      simp only [List.length_append, List.length_cons, List.length_nil]
      omega
    · simp [hN]

theorem measAux_refill (P : BufParams) (s : BufState) :
    measAux P (refill P s) = measAux P s := by
  induction s using refill.induct P with
  | case1 s hg ih => rw [refill, dif_pos hg, ih, measAux_requestNext]
  | case2 s hg => rw [refill, dif_neg hg]

theorem sidx_requestNext (P : BufParams) (s : BufState) :
    (requestNext P s).sidx = s.sidx := by
  unfold requestNext
  by_cases h1 : s.finished
  · simp [h1]
  · simp only [h1, Bool.false_eq_true, if_false]
    by_cases hN : s.nextIdx < P.N <;> simp [hN]

theorem sidx_refill (P : BufParams) (s : BufState) : (refill P s).sidx = s.sidx := by
  induction s using refill.induct P with
  | case1 s hg ih => rw [refill, dif_pos hg, ih, sidx_requestNext]
  | case2 s hg => rw [refill, dif_neg hg]

theorem refillGuard_refill (P : BufParams) (s : BufState) :
    refillGuard P (refill P s) = false := by
  induction s using refill.induct P with
  | case1 s hg ih => rw [refill, dif_pos hg]; exact ih
  | case2 s hg =>
    rw [refill, dif_neg hg]
    simp only [Bool.not_eq_true] at hg
    exact hg

theorem measure_step (P : BufParams) (s t : BufState) (h : Inv P s) (hst : Step P s t) :
    runMeasure P t < runMeasure P s := by
  cases hst with
  | complete k hk =>
    have hlen : (s.inflight.erase k).length = s.inflight.length - 1 :=
      List.length_erase_of_mem hk
    have hpos : 0 < s.inflight.length := List.length_pos.2 (List.ne_nil_of_mem hk)
    have hm : measAux P (finishedCb P k s) + 1 = measAux P s := by
      unfold finishedCb
      dsimp only
      cases hfb : s.finished with
      | true =>
        simp only [if_true]
        unfold measAux
        dsimp only
        rw [hlen]
        omega
      | false =>
        simp only [Bool.false_eq_true, if_false]
        by_cases hfk : P.fails k
        · simp only [hfk, if_true]
          unfold measAux
          dsimp only
          rw [hlen]
          omega
        · simp only [hfk, Bool.false_eq_true, if_false]
          rw [measAux_refill]
          unfold measAux
          dsimp only
          rw [hlen]
          omega
    have hsx : (finishedCb P k s).sidx = s.sidx := by
      unfold finishedCb
      dsimp only
      cases hfb : s.finished with
      | true => simp
      | false =>
        simp only [Bool.false_eq_true, if_false]
        by_cases hfk : P.fails k
        · simp [hfk]
        · simp only [hfk, Bool.false_eq_true, if_false]
          rw [sidx_refill]
    unfold runMeasure
    rw [hsx]
    have hb1 : (if refillGuard P (finishedCb P k s) = true then 1 else 0) ≤ 1 := by
      split <;> omega
    have hb2 : 0 ≤ (if refillGuard P s = true then 1 else 0) := by
      split <;> omega
    omega
  | deliver hd =>
    have hcnt : s.sidx < s.nextIdx := sidx_lt_of_mem s P h hd
    have hNs : s.sidx < P.N := lt_of_lt_of_le hcnt h.next_le
    have hm : measAux P (deliverStep s) = measAux P s := rfl
    unfold runMeasure
    rw [hm]
    have hb1 : (if refillGuard P (deliverStep s) = true then 1 else 0) ≤ 1 := by
      split <;> omega
    have hb2 : 0 ≤ (if refillGuard P s = true then 1 else 0) := by
      split <;> omega
    have hsx : (deliverStep s).sidx = s.sidx + 1 := rfl
    rw [hsx]
    omega
  | refillS hg =>
    unfold runMeasure
    rw [measAux_refill, sidx_refill, refillGuard_refill, hg]
    simp

theorem stuck_spec (P : BufParams) (s : BufState) (hp : 0 < P.prefetch)
    (hb : P.prefetch ≤ P.backlog) (h : Inv P s) (hst : Stuck P s) :
    s.finished = true ∧ s.inflight = [] ∧ s.reorder = [] ∧ s.sidx = s.nextIdx := by
  have hin : s.inflight = [] := by
    cases hi : s.inflight with
    | nil => rfl
    | cons a l =>
      exact absurd (Step.complete s a (by rw [hi]; exact List.mem_cons_self a l)) (hst _)
  have hrun : s.running = 0 := by
    rw [h.run_inflight, hin]
    rfl
  have hre : s.reorder = [] := by
    by_contra hne
    have hw := h.reorder_window
    have hcnt : s.nextIdx - s.sidx ≠ 0 := by
      intro h0
      rw [hw, h0] at hne
      simp at hne
    have hmem : s.sidx ∈ s.reorder := by
      rw [hw]
      apply List.mem_range'_1.2
      omega
    exact absurd (Step.deliver s hmem) (hst _)
  have hg : refillGuard P s = false := by
    cases hgb : refillGuard P s with
    | false => rfl
    | true => exact absurd (Step.refillS s hgb) (hst _)
  have hfin : s.finished = true := by
    by_contra hf
    have hf2 : s.finished = false := by
      cases hfb : s.finished with
      | false => rfl
      | true => exact absurd hfb hf
    have : refillGuard P s = true := by
      simp only [refillGuard, hf2, hrun, hre, Bool.not_false, Bool.true_and,
        Bool.and_eq_true, decide_eq_true_eq]
      constructor
      · exact_mod_cast hp
      · simpa using lt_of_lt_of_le hp hb
    rw [this] at hg
    cases hg
  have hsx : s.sidx = s.nextIdx := by
    have hw := h.reorder_window
    rw [hre] at hw
    have := congrArg List.length hw
    simp only [List.length_nil, List.length_range'] at this
    have hs := h.sidx_le
    omega
  exact ⟨hfin, hin, hre, hsx⟩

theorem nextIdx_requestNext (P : BufParams) (s : BufState) :
    s.nextIdx ≤ (requestNext P s).nextIdx := by
  unfold requestNext
  by_cases h1 : s.finished
  · simp [h1]
  · simp only [h1, Bool.false_eq_true, if_false]
    by_cases hN : s.nextIdx < P.N <;> simp [hN]

theorem nextIdx_refill (P : BufParams) (s : BufState) :
    s.nextIdx ≤ (refill P s).nextIdx := by
  induction s using refill.induct P with
  | case1 s hg ih =>
    rw [refill, dif_pos hg]
    exact le_trans (nextIdx_requestNext P s) ih
  | case2 s hg => rw [refill, dif_neg hg]

theorem nextIdx_step (P : BufParams) (s t : BufState) (hst : Step P s t) :
    s.nextIdx ≤ t.nextIdx := by
  cases hst with
  | complete k hk =>
    unfold finishedCb
    dsimp only
    cases hfb : s.finished with
    | true => simp
    | false =>
      simp only [Bool.false_eq_true, if_false]
      by_cases hfk : P.fails k
      · simp [hfk]
      · simp only [hfk, Bool.false_eq_true, if_false]
        exact nextIdx_refill P ⟨false, s.running - 1, s.reorder, s.inflight.erase k,
          s.nextIdx, s.sidx, s.yielded⟩
  | deliver hd => exact le_refl _
  | refillS hg => exact nextIdx_refill P s

theorem nextIdx_steps (P : BufParams) (s t : BufState)
    (hst : Relation.ReflTransGen (Step P) s t) : s.nextIdx ≤ t.nextIdx := by
  induction hst with
  | refl => exact le_refl _
  | tail _ hbc ih => exact le_trans ih (nextIdx_step P _ _ hbc)

/-- When the pipeline halts, delivery has caught up with the request
cursor, and the finish was caused by source exhaustion or by an observed
failing index. -/
theorem stuck_sidx (P : BufParams) (s : BufState) (hp : 0 < P.prefetch)
    (hb : P.prefetch ≤ P.backlog) (hr : Reachable P s) (hst : Stuck P s) :
    s.sidx = s.nextIdx ∧ (s.nextIdx = P.N ∨ ∃ m, m < s.nextIdx ∧ P.fails m = true) := by
  have h := inv_reachable P s hr
  obtain ⟨hfin, _, _, hsx⟩ := stuck_spec P s hp hb h hst
  exact ⟨hsx, h.finished_reason hfin⟩

theorem startState_witFail : startState witFail = witS1 := by
  have h0 : startState witFail = refill witFail witS1 := by
    rw [startState, refill, dif_pos (by decide)]
    rfl
  rw [h0, refill, dif_neg (by decide)]

theorem witFail_reach : Reachable witFail witS3 := by
  have h1 : Step witFail witS1 witS2 := by
    have heq : finishedCb witFail 0 witS1 = witS2 := by decide
    rw [← heq]
    exact Step.complete witS1 0 (by decide)
  have h2 : Step witFail witS2 witS3 := by
    have heq : deliverStep witS2 = witS3 := by decide
    rw [← heq]
    exact Step.deliver witS2 (by decide)
  unfold Reachable
  rw [startState_witFail]
  exact Relation.ReflTransGen.head h1 (Relation.ReflTransGen.single h2)

theorem witS3_stuck : Stuck witFail witS3 := by
  intro t hst
  cases hst with
  | complete k hk => exact absurd hk (List.not_mem_nil k)
  | deliver hd => exact absurd hd (List.not_mem_nil 1)
  | refillS hg => exact absurd hg (by decide)

/-- C1: for every finite source of `N` futures none of which fails (and
normalized parameters), the pipeline `buffer_futures` yields exactly `N`
futures, and the k-th future it yields is the future at source index `k`,
regardless of completion order: along every interleaving the yield
history always equals `0,…,sidx-1`; every interleaving terminates (the
measure strictly decreases at each step); and every halted interleaving
has yielded exactly the indices `0,…,N-1` in order. -/
theorem claim_C1 (P : BufParams) (hp : 0 < P.prefetch) (hb : P.prefetch ≤ P.backlog)
    (hfail : ∀ k, P.fails k = false) :
    (∀ s, Reachable P s → s.yielded = List.range s.sidx) ∧
    (∀ s, Reachable P s → Stuck P s →
      s.yielded = List.range P.N ∧ s.yielded.length = P.N) ∧
    (∀ s t, Reachable P s → Step P s t → runMeasure P t < runMeasure P s) := by
  refine ⟨?_, ?_, ?_⟩
  · intro s hs
    exact (inv_reachable P s hs).yielded_eq
  · intro s hs hstuck
    have h := inv_reachable P s hs
    obtain ⟨hsx, hreason⟩ := stuck_sidx P s hp hb hs hstuck
    have hN : s.nextIdx = P.N := by
      rcases hreason with hN | ⟨m, _, hm⟩
      · exact hN
      · rw [hfail m] at hm
        cases hm
    have hsN : s.sidx = P.N := by omega
    rw [h.yielded_eq, hsN]
    exact ⟨rfl, List.length_range P.N⟩
  · intro s t hs hst
    exact measure_step P s t (inv_reachable P s hs) hst

theorem claim_C1_witness :
    (startState witOk).yielded = List.range (startState witOk).sidx :=
  (claim_C1 witOk (by decide) (by decide) (fun _ => rfl)).1 (startState witOk)
    Relation.ReflTransGen.refl

/-- C2: when index `k` is the first failing item, the completion callback
observing the failure marks the pipeline finished; once finished, no step
pulls any further item from the source; and every halted interleaving has
delivered the indices `0,…,sidx-1` in order with `k < sidx` — so every
successfully completed index `j < k` was delivered, and the failing
future itself was delivered at position `k` of the output order. -/
theorem claim_C2 (P : BufParams) (k : Nat) (hp : 0 < P.prefetch)
    (hb : P.prefetch ≤ P.backlog) (hkN : k < P.N) (hkf : P.fails k = true)
    (hfirst : ∀ j, j < k → P.fails j = false) :
    (∀ s : BufState, s.finished = false → (finishedCb P k s).finished = true) ∧
    (∀ s t, Reachable P s → Step P s t → s.finished = true →
      t.finished = true ∧ t.nextIdx = s.nextIdx) ∧
    (∀ s, Reachable P s → Stuck P s → s.yielded = List.range s.sidx ∧ k < s.sidx) := by
  refine ⟨?_, ?_, ?_⟩
  · intro s hf
    unfold finishedCb
    dsimp only
    rw [hf]
    simp [hkf]
  · intro s t _ hst hf
    cases hst with
    | complete k2 hk2 =>
      unfold finishedCb
      dsimp only
      rw [hf]
      simp
    | deliver hd => exact ⟨hf, rfl⟩
    | refillS hg =>
      obtain ⟨h1, _, _⟩ := refillGuard_spec P s hg
      rw [hf] at h1
      cases h1
  · intro s hs hstuck
    have h := inv_reachable P s hs
    obtain ⟨hsx, hreason⟩ := stuck_sidx P s hp hb hs hstuck
    refine ⟨h.yielded_eq, ?_⟩
    rcases hreason with hN | ⟨m, hm1, hm2⟩
    · omega
    · have hkm : k ≤ m := by
        by_contra hc
        rw [hfirst m (by omega)] at hm2
        cases hm2
      omega

theorem claim_C2_witness : (finishedCb witFail 0 witS1).finished = true :=
  (claim_C2 witFail 0 (by decide) (by decide) (by decide) (by decide)
      (fun j hj => absurd hj (Nat.not_lt_zero j))).1 witS1 rfl

/-- C3: with normalized parameters `prefetch > 0` and
`backlog ≥ prefetch`, every state reachable by any interleaving of
refills, completion callbacks and delivery steps satisfies
`running ≤ prefetch`, `|reorder| ≤ backlog`, and `sidx ≤ nextIdx` (the
delivery cursor never passes the request cursor). -/
theorem claim_C3 (P : BufParams) (hp : 0 < P.prefetch) (hb : P.prefetch ≤ P.backlog) :
    ∀ s, Reachable P s →
      s.running ≤ (P.prefetch : Int) ∧ s.reorder.length ≤ P.backlog ∧
        s.sidx ≤ s.nextIdx := by
  intro s hs
  have h := inv_reachable P s hs
  exact ⟨h.run_le, h.reorder_le, h.sidx_le⟩

theorem claim_C3_witness :
    (startState witOk).running ≤ (witOk.prefetch : Int) ∧
      (startState witOk).reorder.length ≤ witOk.backlog ∧
      (startState witOk).sidx ≤ (startState witOk).nextIdx :=
  claim_C3 witOk (by decide) (by decide) (startState witOk) Relation.ReflTransGen.refl

/-- C10: after the first failing item `k` is observed, the generator does
not discard the reorder buffer: for every reachable state `s` and every
halted state `t` that any interleaving reaches from it, every future
buffered in `s` — including indices greater than `k` — has been yielded
in `t`, the whole yield history of `t` is exactly the requested indices
in ascending order, and the failing future itself was yielded (handed
out at its own index, not raised by the generator). -/
theorem claim_C10 (P : BufParams) (k : Nat) (hp : 0 < P.prefetch)
    (hb : P.prefetch ≤ P.backlog) (hkN : k < P.N) (hkf : P.fails k = true)
    (hfirst : ∀ j, j < k → P.fails j = false) :
    ∀ s t, Reachable P s → Relation.ReflTransGen (Step P) s t → Stuck P t →
      (∀ j ∈ s.reorder, j ∈ t.yielded) ∧
        t.yielded = List.range t.nextIdx ∧ k ∈ t.yielded := by
  intro s t hs hrt hstuck
  have hrt2 : Reachable P t := Relation.ReflTransGen.trans hs hrt
  have ht := inv_reachable P t hrt2
  have hsI := inv_reachable P s hs
  obtain ⟨hsx, hreason⟩ := stuck_sidx P t hp hb hrt2 hstuck
  have hyt : t.yielded = List.range t.nextIdx := by
    rw [ht.yielded_eq, hsx]
  have hkn : k < t.nextIdx := by
    rcases hreason with hN | ⟨m, hm1, hm2⟩
    · omega
    · have : k ≤ m := by
        by_contra hc
        rw [hfirst m (by omega)] at hm2
        cases hm2
      omega
  refine ⟨?_, hyt, ?_⟩
  · intro j hj
    have hjn : j < s.nextIdx := by
      rw [hsI.reorder_window] at hj
      have := List.mem_range'_1.1 hj
      omega
    have hmono := nextIdx_steps P s t hrt
    rw [hyt]
    exact List.mem_range.2 (by omega)
  · rw [hyt]
    exact List.mem_range.2 hkn

theorem claim_C10_witness :
    (∀ j ∈ witS3.reorder, j ∈ witS3.yielded) ∧
      witS3.yielded = List.range witS3.nextIdx ∧ 0 ∈ witS3.yielded :=
  claim_C10 witFail 0 (by decide) (by decide) (by decide) (by decide)
    (fun j hj => absurd hj (Nat.not_lt_zero j)) witS3 witS3 witFail_reach
    Relation.ReflTransGen.refl witS3_stuck

end Nodes

namespace Video

/-- C5: parameter normalization of the prefetch pipeline: a `prefetch` of
0 is replaced by the engine-default worker-thread count; an unspecified
`backlog` defaults to three times the normalized prefetch; a backlog
below `prefetch` is clamped up to `prefetch`; and a caller-supplied
backlog of 0 or a negative value makes `frames` skip `buffer_futures`
entirely, consuming the one-at-a-time generator directly. -/
theorem claim_C5 :
    (∀ nt : Int, normalizePrefetch nt 0 = nt) ∧
    (∀ nt p : Int, p ≠ 0 → normalizePrefetch nt p = p) ∧
    (∀ p : Int, 0 ≤ p → normalizeBacklog p none = 3 * p) ∧
    (∀ p b : Int, b < p → normalizeBacklog p (some b) = p) ∧
    (∀ p b : Int, p ≤ b → normalizeBacklog p (some b) = b) ∧
    (framesBuffered none = true) ∧
    (∀ b : Int, b ≤ 0 → framesBuffered (some b) = false) ∧
    (∀ b : Int, 0 < b → framesBuffered (some b) = true) := by
  refine ⟨?_, ?_, ?_, ?_, ?_, ?_, ?_, ?_⟩
  · intro nt
    simp [normalizePrefetch]
  · intro nt p hp
    simp [normalizePrefetch, hp]
  · intro p hp
    simp only [normalizeBacklog]
    have : ¬ p * 3 < p := by omega
    simp only [this, if_false]
    omega
  · intro p b hb
    simp only [normalizeBacklog, hb, if_true]
  · intro p b hb
    simp only [normalizeBacklog]
    have : ¬ b < p := by omega
    simp [this]
  · rfl
  · intro b hb
    simp only [framesBuffered, decide_eq_false_iff_not]
    omega
  · intro b hb
    simp only [framesBuffered, decide_eq_true_eq]
    omega

theorem claim_C5_witness :
    normalizePrefetch 8 0 = 8 ∧ normalizeBacklog 4 (some 2) = 4 ∧
      framesBuffered (some (-1)) = false :=
  ⟨claim_C5.1 8, claim_C5.2.2.2.1 4 2 (by decide),
    claim_C5.2.2.2.2.2.2.1 (-1) (by decide)⟩

end Video

namespace Close

theorem requestStep_spec (N k : Nat) (s : CState) :
    (requestStep N k s).pulled = (if k < N then k + 1 else s.pulled) ∧
    (requestStep N k s).phase = (if k < N then Phase.waiting k else Phase.done) ∧
    (requestStep N k s).observed = s.observed ∧
    (requestStep N k s).completedF = s.completedF ∧
    (requestStep N k s).enteredF =
      (if k < N ∧ s.completedF k = true then setTrue s.enteredF k else s.enteredF) ∧
    (requestStep N k s).exitRegF = (if k = 0 then s.exitRegF else setTrue s.exitRegF (k - 1)) ∧
    (requestStep N k s).exitCount =
      (if k ≠ 0 ∧ s.completedF (k - 1) = true then bump s.exitCount (k - 1)
        else s.exitCount) := by
  unfold requestStep
  cases k with
  | zero =>
    by_cases hN : 0 < N <;> by_cases hck : s.completedF 0 = true <;> simp [hN, hck]
  | succ m =>
    by_cases hN : m + 1 < N <;> by_cases hc1 : s.completedF m = true <;>
      by_cases hck : s.completedF (m + 1) = true <;> simp [hN, hc1, hck]

theorem completeStep_spec (k : Nat) (s : CState) :
    (completeStep k s).pulled = s.pulled ∧
    (completeStep k s).phase = s.phase ∧
    (completeStep k s).observed = s.observed ∧
    (completeStep k s).completedF = setTrue s.completedF k ∧
    (completeStep k s).enteredF = setTrue s.enteredF k ∧
    (completeStep k s).exitRegF = s.exitRegF ∧
    (completeStep k s).exitCount =
      (if s.exitRegF k = true then bump s.exitCount k else s.exitCount) := by
  unfold completeStep
  by_cases hr : s.exitRegF k = true <;> simp [hr]

theorem cinv_init (N : Nat) : CInv N CInit := by
  refine ⟨?_, ?_, ?_, ?_, ?_, ?_, ?_, ?_⟩
  · intro k
    rfl
  · intro k hk
    exact absurd hk Bool.false_ne_true
  · intro k hk
    simp only [CInit] at hk
    cases hk
    exact ⟨rfl, rfl, Nat.zero_le N⟩
  · intro k hk
    simp [CInit] at hk
  · intro hk
    simp [CInit] at hk
  · intro k hk
    simp [CInit] at hk
  · intro k
    simp [CInit, reqCount]
  · intro k
    simp [CInit]

theorem cinv_requestStep (N k : Nat) (s : CState) (hph : s.phase = Phase.idle k)
    (hk : k ≤ N) (h : CInv N s) : CInv N (requestStep N k s) := by
  obtain ⟨hobs, hpul, _⟩ := h.phase_idle k hph
  have hck : s.completedF k = false := by
    cases hc : s.completedF k with
    | false => rfl
    | true =>
      have := h.completed_pulled k hc
      omega
  obtain ⟨e1, e2, e3, e4, e5, e6, e7⟩ := requestStep_spec N k s
  rw [hck] at e5
  simp only [Bool.false_eq_true, and_false, if_false] at e5
  have hrcs : reqCount N s = k := by
    unfold reqCount
    rw [hph]
  have hrc : reqCount N (requestStep N k s) = k + 1 := by
    unfold reqCount
    rw [e2]
    by_cases hN : k < N
    · simp [hN]
    · have hkN : k = N := by omega
      simp [hN, hkN]
  refine ⟨?_, ?_, ?_, ?_, ?_, ?_, ?_, ?_⟩
  · intro j
    rw [e5, e4]
    exact h.entered_iff j
  · intro j hj
    rw [e4] at hj
    rw [e1]
    have := h.completed_pulled j hj
    by_cases hN : k < N <;> simp [hN] <;> omega
  · intro j hj
    rw [e2] at hj
    by_cases hN : k < N <;> simp [hN] at hj
  · intro j hj
    rw [e2] at hj
    by_cases hN : k < N
    · simp only [hN, if_true, Phase.waiting.injEq] at hj
      subst hj
      rw [e3, e1]
      simp [hN, hobs]
    · simp [hN] at hj
  · intro hj
    rw [e2] at hj
    by_cases hN : k < N
    · simp [hN] at hj
    · have hkN : k = N := by omega
      rw [e3, e1]
      simp [hN, hobs, hpul, hkN]
  · intro j hj
    rw [e3] at hj
    rw [e5]
    exact h.observed_entered j hj
  · intro j
    rw [e6, hrc]
    by_cases h0 : k = 0
    · simp only [h0, if_true]
      rw [h.reg_iff j, hrcs, h0]
      omega
    · simp only [h0, if_false]
      by_cases hj : j = k - 1
      · subst hj
        simp only [setTrue, if_pos rfl]
        constructor
        · intro _
          omega
        · intro _
          rfl
      · simp only [setTrue, hj, if_false]
        rw [h.reg_iff j, hrcs]
        omega
  · intro j
    rw [e7, e4]
    have hold := h.exit_eq j
    by_cases h0 : k = 0
    · have hne : ¬(k ≠ 0 ∧ s.completedF (k - 1) = true) := by simp [h0]
      rw [if_neg hne, e6, if_pos h0]
      exact hold
    · rw [e6, if_neg h0]
      by_cases hj : j = k - 1
      · subst hj
        have hregold : s.exitRegF (k - 1) = false := by
          cases hr : s.exitRegF (k - 1) with
          | false => rfl
          | true =>
            have := (h.reg_iff (k - 1)).1 hr
            rw [hrcs] at this
            omega
        rw [hregold] at hold
        simp only [Bool.false_eq_true, false_and, if_false] at hold
        by_cases hc1 : s.completedF (k - 1) = true
        · simp only [h0, hc1, ne_eq, not_false_iff, true_and, if_true]
          simp only [bump, if_pos rfl, setTrue, if_pos rfl, hc1, and_true, if_true, hold]
        · have hc1f : s.completedF (k - 1) = false := by
            cases hcf : s.completedF (k - 1) with
            | false => rfl
            | true => exact absurd hcf hc1
          simp only [h0, hc1f, ne_eq, not_false_iff, true_and, Bool.false_eq_true, and_false,
            if_false, setTrue, if_pos rfl, hold]
      · have hsj : setTrue s.exitRegF (k - 1) j = s.exitRegF j := by
          simp [setTrue, hj]
        rw [hsj]
        by_cases hc1 : s.completedF (k - 1) = true
        · simp only [h0, hc1, ne_eq, not_false_iff, true_and, if_true, bump, hj, if_false]
          exact hold
        · have hc1f : s.completedF (k - 1) = false := by
            cases hcf : s.completedF (k - 1) with
            | false => rfl
            | true => exact absurd hcf hc1
          simp only [h0, hc1f, ne_eq, not_false_iff, true_and, Bool.false_eq_true, and_false,
            if_false]
          exact hold

theorem cinv_completeStep (N k : Nat) (s : CState) (hp : k < s.pulled)
    (hc : s.completedF k = false) (h : CInv N s) : CInv N (completeStep k s) := by
  obtain ⟨e1, e2, e3, e4, e5, e6, e7⟩ := completeStep_spec k s
  have hrc : reqCount N (completeStep k s) = reqCount N s := by
    unfold reqCount
    rw [e2]
  refine ⟨?_, ?_, ?_, ?_, ?_, ?_, ?_, ?_⟩
  · intro j
    rw [e5, e4]
    by_cases hj : j = k <;> simp [setTrue, hj, h.entered_iff j]
  · intro j hj
    rw [e4] at hj
    rw [e1]
    by_cases hjk : j = k
    · subst hjk
      exact hp
    · simp only [setTrue, hjk, if_false] at hj
      exact h.completed_pulled j hj
  · intro j hj
    rw [e2] at hj
    obtain ⟨ho, hpu, hN⟩ := h.phase_idle j hj
    exact ⟨e3 ▸ ho, e1 ▸ hpu, hN⟩
  · intro j hj
    rw [e2] at hj
    obtain ⟨ho, hpu, hN⟩ := h.phase_waiting j hj
    exact ⟨e3 ▸ ho, e1 ▸ hpu, hN⟩
  · intro hj
    rw [e2] at hj
    obtain ⟨ho, hpu⟩ := h.phase_done hj
    exact ⟨e3 ▸ ho, e1 ▸ hpu⟩
  · intro j hj
    rw [e3] at hj
    rw [e5]
    have := h.observed_entered j hj
    by_cases hjk : j = k <;> simp [setTrue, hjk, this]
  · intro j
    rw [e6, hrc]
    exact h.reg_iff j
  · intro j
    rw [e7, e6, e4]
    have hold := h.exit_eq j
    by_cases hjk : j = k
    · subst hjk
      rw [hc] at hold
      simp only [Bool.false_eq_true, and_false, if_false] at hold
      by_cases hr : s.exitRegF j = true
      · simp only [hr, if_true, bump, if_pos rfl, hold, setTrue, if_pos rfl, and_true]
      · have hrf : s.exitRegF j = false := by
          cases hrc2 : s.exitRegF j with
          | false => rfl
          | true => exact absurd hrc2 hr
        simp only [hrf, Bool.false_eq_true, if_false, setTrue, if_pos rfl, false_and, hold]
    · have hst : setTrue s.completedF k j = s.completedF j := by
        simp [setTrue, hjk]
      rw [hst]
      by_cases hr : s.exitRegF k = true
      · simp only [hr, if_true, bump, hjk, if_false]
        exact hold
      · have hrf : s.exitRegF k = false := by
          cases hrc2 : s.exitRegF k with
          | false => rfl
          | true => exact absurd hrc2 hr
        simp only [hrf, Bool.false_eq_true, if_false]
        exact hold

theorem cinv_observeStep (N k : Nat) (s : CState) (hph : s.phase = Phase.waiting k)
    (he : s.enteredF k = true) (h : CInv N s) : CInv N (observeStep k s) := by
  obtain ⟨hobs, hpul, hkN⟩ := h.phase_waiting k hph
  have hrc : reqCount N (observeStep k s) = reqCount N s := by
    unfold reqCount
    rw [hph]
    rfl
  refine ⟨h.entered_iff, h.completed_pulled, ?_, ?_, ?_, ?_, ?_, ?_⟩
  · intro j hj
    simp only [observeStep, Phase.idle.injEq] at hj ⊢
    subst hj
    omega
  · intro j hj
    simp only [observeStep] at hj
    cases hj
  · intro hj
    simp only [observeStep] at hj
    cases hj
  · intro j hj
    simp only [observeStep] at hj ⊢
    by_cases hjk : j = k
    · subst hjk
      exact he
    · exact h.observed_entered j (by omega)
  · intro j
    rw [hrc]
    exact h.reg_iff j
  · intro j
    exact h.exit_eq j

theorem cinv_step (N : Nat) (s t : CState) (hst : CStep N s t) (h : CInv N s) : CInv N t := by
  cases hst with
  | request k hph hk => exact cinv_requestStep N k s hph hk h
  | complete k hp hc => exact cinv_completeStep N k s hp hc h
  | observe k hph he => exact cinv_observeStep N k s hph he h

theorem cinv_reachable (N : Nat) (s : CState) (h : CReachable N s) : CInv N s := by
  induction h with
  | refl => exact cinv_init N
  | tail _ hbc ih => exact cinv_step N _ _ hbc ih

theorem observed_le_reqCount (N : Nat) (s : CState) (h : CInv N s) :
    s.observed ≤ reqCount N s := by
  cases hph : s.phase with
  | idle k =>
    obtain ⟨ho, _, _⟩ := h.phase_idle k hph
    simp only [reqCount, hph]
    omega
  | waiting k =>
    obtain ⟨ho, _, _⟩ := h.phase_waiting k hph
    simp only [reqCount, hph]
    omega
  | done =>
    obtain ⟨ho, _⟩ := h.phase_done hph
    simp only [reqCount, hph]
    omega

/-- C8: for every sequence of `N` resource-producing futures consumed
fully sequentially through `close_when_needed`, in every reachable state
of every completion interleaving: a resource with an invoked `__exit__`
has been produced and entered (so no exit precedes production and entry —
entry and exit flags only ever go from unset to set); once the consumer
has observed resource `k+1`, resource `k` has already been exited;
`__exit__` never runs twice on the same resource; and when the generator
has been exhausted and all pulled futures have completed, every resource
has been exited exactly once. -/
theorem claim_C8 (N : Nat) :
    ∀ s, CReachable N s →
      (∀ k, 1 ≤ s.exitCount k → s.enteredF k = true ∧ s.completedF k = true) ∧
      (∀ k, k + 2 ≤ s.observed → s.exitCount k = 1) ∧
      (∀ k, s.exitCount k ≤ 1) ∧
      (s.phase = Phase.done → (∀ k, k < N → s.completedF k = true) →
        ∀ k, k < N → s.exitCount k = 1) := by
  intro s hs
  have h := cinv_reachable N s hs
  refine ⟨?_, ?_, ?_, ?_⟩
  · intro k hk
    have he := h.exit_eq k
    by_cases hcond : s.exitRegF k = true ∧ s.completedF k = true
    · exact ⟨(h.entered_iff k).symm ▸ hcond.2, hcond.2⟩
    · rw [if_neg hcond] at he
      omega
  · intro k hk
    have hco : s.completedF k = true := by
      rw [← h.entered_iff k]
      exact h.observed_entered k (by omega)
    have hreg : s.exitRegF k = true := by
      rw [h.reg_iff k]
      have := observed_le_reqCount N s h
      omega
    rw [h.exit_eq k, if_pos ⟨hreg, hco⟩]
  · intro k
    rw [h.exit_eq k]
    split <;> omega
  · intro hdone hall k hkN
    obtain ⟨ho, _⟩ := h.phase_done hdone
    have hreg : s.exitRegF k = true := by
      rw [h.reg_iff k]
      simp only [reqCount, hdone]
      omega
    rw [h.exit_eq k, if_pos ⟨hreg, hall k hkN⟩]

theorem claim_C8_witness :
    (∀ k, 1 ≤ CInit.exitCount k → CInit.enteredF k = true ∧ CInit.completedF k = true) ∧
      (∀ k, k + 2 ≤ CInit.observed → CInit.exitCount k = 1) ∧
      (∀ k, CInit.exitCount k ≤ 1) ∧
      (CInit.phase = Phase.done → (∀ k, k < 3 → CInit.completedF k = true) →
        ∀ k, k < 3 → CInit.exitCount k = 1) :=
  claim_C8 3 CInit Relation.ReflTransGen.refl

end Close

namespace Policy

theorem storeLookup_api (derefAlive envAlive : Nat → Bool) (s : PState) :
    (storeLookup derefAlive envAlive s).2.api = s.api := by
  unfold storeLookup
  cases hst : s.store with
  | none => rfl
  | some t =>
    dsimp only
    split
    · rfl
    · split <;> rfl

theorem getCurrent_api (derefAlive envAlive : Nat → Bool) (s : PState) :
    (get_current_environment derefAlive envAlive s).2.api = s.api := by
  unfold get_current_environment
  cases hl : s.localEnv with
  | none => exact storeLookup_api derefAlive envAlive s
  | some e =>
    dsimp only
    split
    · rfl
    · exact storeLookup_api derefAlive envAlive s

theorem setEnv_api (derefAlive envAlive : Nat → Bool) (e : Option Nat) (s : PState) :
    (set_environment derefAlive envAlive e s).2.api = s.api := by
  unfold set_environment
  cases e with
  | none => cases s.store <;> rfl
  | some env => cases s.store <;> dsimp only <;> split <;> rfl

theorem getCurrent_noOverride (derefAlive envAlive : Nat → Bool) (s : PState)
    (hover : NoLiveOverride envAlive s) :
    get_current_environment derefAlive envAlive s = storeLookup derefAlive envAlive s := by
  unfold get_current_environment
  cases hl : s.localEnv with
  | none => rfl
  | some e => simp [hover e hl]

theorem storeLookup_dead (derefAlive envAlive : Nat → Bool) (s : PState) (t : Nat)
    (hst : s.store = some t) (hdead : derefAlive t = false ∨ envAlive t = false) :
    storeLookup derefAlive envAlive s = (none, { s with store := none }) := by
  unfold storeLookup
  rw [hst]
  rcases hdead with hdd | hdd
  · simp [hdd]
  · cases hdr : derefAlive t with
    | false => simp [hdr]
    | true => simp [hdr, hdd]

/-- C4 counterexample: on a policy with no API handle attached (never
registered, or cleared), `get_current_environment` does not fail loudly:
it runs to completion and silently returns null on an empty store, and
`set_environment` likewise completes normally — it even stores the new
environment.  Neither accessor consults the API handle. -/
theorem claim_C4_counterexample :
    (get_current_environment (fun _ => true) (fun _ => true) ⟨none, none, none⟩).1 = none ∧
      (set_environment (fun _ => true) (fun _ => true) (some 4) ⟨none, none, none⟩).1 =
        none ∧
      (set_environment (fun _ => true) (fun _ => true) (some 4) ⟨none, none, none⟩).2.store =
        some 4 :=
  ⟨rfl, rfl, rfl⟩

/-- C4 (amended): before a policy is activated (no API handle attached),
only the `api` accessor — and with it every operation routed through it,
such as `unregister`, `new_environment` and `dispose` — fails loudly with
a `RuntimeError`.  `get_current_environment` and `set_environment` do not
consult the API handle at all: they operate on the store regardless (the
handle stays absent), and `get_current_environment` on an empty store
silently returns null rather than raising. -/
theorem claim_C4 (derefAlive envAlive : Nat → Bool) (s : PState) (e : Option Nat)
    (hapi : s.api = none) :
    apiAccess s = Except.error () ∧
      (s.localEnv = none → s.store = none →
        get_current_environment derefAlive envAlive s = (none, s)) ∧
      (get_current_environment derefAlive envAlive s).2.api = none ∧
      (set_environment derefAlive envAlive e s).2.api = none := by
  refine ⟨?_, ?_, ?_, ?_⟩
  · unfold apiAccess
    rw [hapi]
  · intro hl hs
    unfold get_current_environment
    rw [hl]
    unfold storeLookup
    rw [hs]
  · rw [getCurrent_api, hapi]
  · rw [setEnv_api, hapi]

theorem claim_C4_witness :
    apiAccess ⟨none, none, none⟩ = Except.error () ∧
      ((⟨none, none, none⟩ : PState).localEnv = none →
        (⟨none, none, none⟩ : PState).store = none →
        get_current_environment (fun _ => true) (fun _ => true) ⟨none, none, none⟩ =
          (none, ⟨none, none, none⟩)) ∧
      (get_current_environment (fun _ => true) (fun _ => true) ⟨none, none, none⟩).2.api =
        none ∧
      (set_environment (fun _ => true) (fun _ => true) (some 4) ⟨none, none, none⟩).2.api =
        none :=
  claim_C4 (fun _ => true) (fun _ => true) ⟨none, none, none⟩ (some 4) rfl

/-- C6 counterexample: the claim as stated fails when a live
inline-section override is active on the calling thread: with the store
holding a weak reference to destroyed environment 0 (dead weak
reference) but the thread inside an inline section on live environment
1, `get_current_environment` returns environment 1 — not null — and
leaves the dead store entry in place. -/
theorem claim_C6_counterexample :
    (get_current_environment (fun _ => false) (fun t => decide (t = 1))
        ⟨some 7, some 0, some 1⟩).1 = some 1 ∧
      (get_current_environment (fun _ => false) (fun t => decide (t = 1))
          ⟨some 7, some 0, some 1⟩).2.store = some 0 :=
  ⟨rfl, rfl⟩

/-- C6 (amended): provided no live inline-section override is active on
the calling thread, whenever the store holds a weak reference to a
destroyed token (the weak reference is dead, or the liveness oracle
reports the referent dead), `get_current_environment` returns null and
clears the store, and a subsequent call with no intervening
`set_environment` returns null again — the dead entry is removed, not
merely skipped once. -/
theorem claim_C6 (derefAlive envAlive : Nat → Bool) (s : PState) (t : Nat)
    (hover : NoLiveOverride envAlive s) (hst : s.store = some t)
    (hdead : derefAlive t = false ∨ envAlive t = false) :
    get_current_environment derefAlive envAlive s = (none, { s with store := none }) ∧
      (get_current_environment derefAlive envAlive { s with store := none }).1 = none := by
  have h1 := getCurrent_noOverride derefAlive envAlive s hover
  have h2 := storeLookup_dead derefAlive envAlive s t hst hdead
  refine ⟨h1.trans h2, ?_⟩
  have hover2 : NoLiveOverride envAlive { s with store := none } := hover
  rw [getCurrent_noOverride derefAlive envAlive _ hover2]
  unfold storeLookup
  rfl

theorem claim_C6_witness :
    get_current_environment (fun _ => false) (fun _ => true) ⟨none, some 0, none⟩ =
        (none, ⟨none, none, none⟩) ∧
      (get_current_environment (fun _ => false) (fun _ => true) ⟨none, none, none⟩).1 =
        none :=
  claim_C6 (fun _ => false) (fun _ => true) ⟨none, some 0, none⟩ 0
    (fun e he => Option.noConfusion he) rfl (Or.inl rfl)

theorem getCurrent_allAlive (derefAlive envAlive : Nat → Bool)
    (hd : ∀ e, derefAlive e = true) (ha : ∀ e, envAlive e = true) (s : PState)
    (hl : s.localEnv = none) :
    get_current_environment derefAlive envAlive s = (s.store, s) := by
  unfold get_current_environment
  rw [hl]
  unfold storeLookup
  cases hst : s.store with
  | none => rfl
  | some t => simp [hd t, ha t]

theorem setEnv_allAlive (derefAlive envAlive : Nat → Bool) (ha : ∀ e, envAlive e = true)
    (e : Option Nat) (s : PState) :
    (set_environment derefAlive envAlive e s).2 = { s with store := e } := by
  unfold set_environment
  cases e with
  | none => cases s.store <;> rfl
  | some env => cases s.store <;> simp [ha env]

theorem runOps_lastWrite (derefAlive envAlive : Nat → Bool)
    (hd : ∀ e, derefAlive e = true) (ha : ∀ e, envAlive e = true) :
    ∀ (ops : List POp) (s : PState), s.localEnv = none →
      runOps derefAlive envAlive s ops = lastWriteOuts s.store ops := by
  intro ops
  induction ops with
  | nil =>
    intro s _
    rfl
  | cons op rest ih =>
    intro s hl
    cases op with
    | set e =>
      have hs2 := setEnv_allAlive derefAlive envAlive ha e s
      simp only [runOps, lastWriteOuts, hs2]
      exact ih { s with store := e } hl
    | get =>
      have hg := getCurrent_allAlive derefAlive envAlive hd ha s hl
      simp only [runOps, lastWriteOuts, hg]
      exact congrArg (s.store :: ·) (ih s hl)

/-- C7: for every single-threaded sequence of `set_environment` /
`get_current_environment` calls on a policy whose thread has no
inline-section override and with all environments alive (live weak
references and live tokens), every `get` returns exactly the argument of
the most recent preceding `set`, and null before any `set`. -/
theorem claim_C7 (derefAlive envAlive : Nat → Bool)
    (hd : ∀ e, derefAlive e = true) (ha : ∀ e, envAlive e = true)
    (ops : List POp) (api : Option Nat) :
    runOps derefAlive envAlive ⟨api, none, none⟩ ops = lastWriteOuts none ops :=
  runOps_lastWrite derefAlive envAlive hd ha ops ⟨api, none, none⟩ rfl

theorem claim_C7_witness :
    runOps (fun _ => true) (fun _ => true) ⟨none, none, none⟩
        [POp.get, POp.set (some 5), POp.get, POp.set none, POp.get] =
      lastWriteOuts none [POp.get, POp.set (some 5), POp.get, POp.set none, POp.get] :=
  claim_C7 (fun _ => true) (fun _ => true) (fun _ => rfl) (fun _ => rfl)
    [POp.get, POp.set (some 5), POp.get, POp.set none, POp.get] none

end Policy

namespace Managed

theorem dispose_none (s : MState) (hd : s.data = none) : dispose s = s := by
  unfold dispose disposed
  rw [hd]
  rfl

theorem dispose_some (s : MState) (d : Nat) (hd : s.data = some d) :
    dispose s = ⟨none, s.hospice ++ [d], s.destroyed ++ [d]⟩ := by
  unfold dispose disposed
  rw [hd]
  rfl

/-- C9: `dispose` is idempotent: disposing twice (or more) equals
disposing once; after a `dispose` the handle is marked disposed; the
first call on a live handle admits the environment to the hospice and
hands the token to `destroy_environment` exactly once; and any call on
an already-disposed handle is a no-op (and raises nothing — the
embedding is a total function). -/
theorem claim_C9 :
    (∀ s : MState, dispose (dispose s) = dispose s) ∧
    (∀ s : MState, disposed (dispose s) = true) ∧
    (∀ (s : MState) (d : Nat), s.data = some d →
      (dispose s).destroyed = s.destroyed ++ [d] ∧
        (dispose s).hospice = s.hospice ++ [d]) ∧
    (∀ s : MState, s.data = none → dispose s = s) := by
  have hnone : ∀ s : MState, s.data = none → dispose s = s := dispose_none
  refine ⟨?_, ?_, ?_, hnone⟩
  · intro s
    cases hd : s.data with
    | none =>
      rw [hnone s hd]
      exact hnone s hd
    | some d =>
      rw [dispose_some s d hd]
      rw [hnone ⟨none, s.hospice ++ [d], s.destroyed ++ [d]⟩ rfl]
  · intro s
    cases hd : s.data with
    | none =>
      rw [hnone s hd]
      unfold disposed
      rw [hd]
      rfl
    | some d => rw [dispose_some s d hd]; rfl
  · intro s d hd
    rw [dispose_some s d hd]
    exact ⟨rfl, rfl⟩

theorem claim_C9_witness :
    dispose (dispose ⟨some 3, [], []⟩) = dispose ⟨some 3, [], []⟩ ∧
      (dispose ⟨some 3, [], []⟩).destroyed = [] ++ [3] :=
  ⟨claim_C9.1 ⟨some 3, [], []⟩, (claim_C9.2.2.1 ⟨some 3, [], []⟩ 3 rfl).1⟩

end Managed

end VsEngine
